import Mathlib

/-! # Verification of the sem expense ledger's CRUD handler

A shallow embedding of `src/modules/crud_handler.py` (class `CRUDHandler`)
together with the schema types of `src/modules/schemas.py`, and proofs about
the embedded operations.  The SQL store reached through the SQLAlchemy
session is modelled as a list of committed rows plus the state of the
`expenses_id_seq` identifier sequence; the CSV transport used by `load` and
`save` is modelled down to the character level.  Dates are year/month/day
triples (Python `datetime.date`), amounts are rationals standing for the
store's numeric column. -/

namespace Sem

/-- Calendar date stored in the `date` column (`datetime.date` values:
year, month, day).  SQL compares dates chronologically; `key` is a
numeric key realising that order for calendar-valid dates. -/
structure Date where
  year : Nat
  month : Nat
  day : Nat
deriving DecidableEq

/-- Chronological sort key of a date. -/
def Date.key (d : Date) : Nat :=
  d.year * 10000 + d.month * 100 + d.day

/-- A persisted expense row.  Fields follow `modules.schemas.ExpenseRead`
(the selection schema): the system-assigned integer primary key `id` plus
`date`, `type`, `category`, `amount`, `description`.  The float `amount`
column is modelled as a rational. -/
structure Expense where
  id : Nat
  date : Date
  type : String
  category : String
  amount : ℚ
  description : String
deriving DecidableEq

/-- The caller-supplied field values of a row, without the system-assigned
identifier. -/
def fieldTuple (e : Expense) : Date × String × String × ℚ × String :=
  (e.date, e.type, e.category, e.amount, e.description)

/-- Validated insertion payload (`modules.schemas.ExpenseAdd`): no `id`. -/
structure ExpenseAdd where
  date : Date
  type : String
  category : String
  amount : ℚ
  description : String
deriving DecidableEq

/-- Partial-update payload (`modules.schemas.ExpenseUpdate`): every field
independently optional, `none` meaning "leave unchanged". -/
structure ExpenseUpdate where
  date : Option Date := none
  type : Option String := none
  category : Option String := none
  amount : Option ℚ := none
  description : Option String := none
deriving DecidableEq

/-- Query filters (`modules.schemas.QueryParameters` /
`modules.crud_handler.QueryParameters`).  The source's `end` field is a
Lean keyword and is called `stop` here. -/
structure QueryParameters where
  start : Option Date := none
  stop : Option Date := none
  types : Option (List String) := none
  categories : Option (List String) := none
deriving DecidableEq

/-- The store visible through the handler's session: the committed rows (in
insertion order) and the value the identifier sequence `expenses_id_seq`
will assign next. -/
structure DBState where
  rows : List Expense
  seq : Nat
deriving DecidableEq

/-! ## The three filter clauses of `CRUDHandler.query`

`query` builds `date_condition`, `type_condition` and `cat_condition`,
each the literal SQL `True` when its parameters are absent, and chains
them with `.where(...)` (logical AND). -/

/-- `Expense.date.between(params.start, params.end)` when both bounds are
present, else the literal `True`. -/
def dateCondition (p : QueryParameters) (e : Expense) : Bool :=
  match p.start, p.stop with
  | some a, some b => decide (a.key ≤ e.date.key ∧ e.date.key ≤ b.key)
  | _, _ => true

/-- `Expense.type.in_(params.types)` when present, else `True`. -/
def typeCondition (p : QueryParameters) (e : Expense) : Bool :=
  match p.types with
  | some ts => decide (e.type ∈ ts)
  | none => true

/-- `Expense.category.in_(params.categories)` when present, else `True`. -/
def catCondition (p : QueryParameters) (e : Expense) : Bool :=
  match p.categories with
  | some cs => decide (e.category ∈ cs)
  | none => true

/-- Row order used by `order_by(Expense.date)`: ascending date. -/
def expenseLE (a b : Expense) : Prop :=
  a.date.key ≤ b.date.key

instance : DecidableRel expenseLE :=
  fun a b => inferInstanceAs (Decidable (a.date.key ≤ b.date.key))

instance : IsTotal Expense expenseLE :=
  ⟨fun a b => Nat.le_total a.date.key b.date.key⟩

instance : IsTrans Expense expenseLE :=
  ⟨fun _ _ _ h h2 => Nat.le_trans h h2⟩

/-- `CRUDHandler.query`: select the rows passing all three clauses, ordered
ascending by `date` (`.order_by(Expense.date)`); ties keep store order. -/
def query (s : DBState) (p : QueryParameters) : List Expense :=
  List.insertionSort expenseLE
    (((s.rows.filter (dateCondition p)).filter (typeCondition p)).filter
      (catCondition p))

/-! ## `CRUDHandler.summarize`

The same three clauses, then `group_by(Expense.category, Expense.type)`
with `func.sum(Expense.amount)`, ordered by `(category, type)`; the SQL
select list is `(Expense.type, sum)` — the category key is *not* part of
the emitted rows. -/

/-- Lexicographic strict order on character runs, by code point: the
text ordering SQL's default collation gives `ORDER BY` on this data. -/
def charsLt : List Char → List Char → Bool
  | [], [] => false
  | [], _ :: _ => true
  | _ :: _, [] => false
  | a :: as, b :: bs =>
    if a.toNat < b.toNat then true
    else if b.toNat < a.toNat then false
    else charsLt as bs

/-- Strict text order on strings. -/
def strLt (a b : String) : Bool :=
  charsLt a.toList b.toList

theorem charsLt_trans : ∀ {a b c : List Char}, charsLt a b = true →
    charsLt b c = true → charsLt a c = true
  | [], _ :: _, [], _, h2 => by simp [charsLt] at h2
  | [], _ :: _, _ :: _, _, _ => rfl
  | [], [], _, h1, _ => by simp [charsLt] at h1
  | _ :: _, [], _, h1, _ => by simp [charsLt] at h1
  | _ :: _, _ :: _, [], _, h2 => by simp [charsLt] at h2
  | a :: as, b :: bs, c :: cs, h1, h2 => by
    simp only [charsLt] at h1 h2 ⊢
    by_cases g1 : a.toNat < b.toNat
    · by_cases g2 : b.toNat < c.toNat
      · simp [g1.trans g2]
      · rw [if_neg g2] at h2
        by_cases g3 : c.toNat < b.toNat
        · rw [if_pos g3] at h2
          exact absurd h2 (by simp)
        · have g4 : a.toNat < c.toNat := by omega
          simp [g4]
    · rw [if_neg g1] at h1
      by_cases g1b : b.toNat < a.toNat
      · rw [if_pos g1b] at h1
        exact absurd h1 (by simp)
      · rw [if_neg g1b] at h1
        by_cases g2 : b.toNat < c.toNat
        · have g4 : a.toNat < c.toNat := by omega
          simp [g4]
        · rw [if_neg g2] at h2
          by_cases g3 : c.toNat < b.toNat
          · rw [if_pos g3] at h2
            exact absurd h2 (by simp)
          · rw [if_neg g3] at h2
            have g4 : ¬ a.toNat < c.toNat := by omega
            have g5 : ¬ c.toNat < a.toNat := by omega
            rw [if_neg g4, if_neg g5]
            exact charsLt_trans h1 h2

theorem chars_eq_of_toNat_eq {a b : Char} (h : a.toNat = b.toNat) : a = b := by
  apply Char.ext
  exact UInt32.toNat.inj h

theorem charsLt_trichotomy : ∀ a b : List Char,
    charsLt a b = true ∨ a = b ∨ charsLt b a = true
  | [], [] => Or.inr (Or.inl rfl)
  | [], _ :: _ => Or.inl rfl
  | _ :: _, [] => Or.inr (Or.inr rfl)
  | a :: as, b :: bs => by
    rcases Nat.lt_trichotomy a.toNat b.toNat with h | h | h
    · exact Or.inl (by simp [charsLt, h])
    · rcases charsLt_trichotomy as bs with h2 | h2 | h2
      · exact Or.inl (by simp [charsLt, h, h2])
      · exact Or.inr (Or.inl (by rw [chars_eq_of_toNat_eq h, h2]))
      · exact Or.inr (Or.inr (by simp [charsLt, h.symm, h2]))
    · exact Or.inr (Or.inr (by simp [charsLt, h]))

theorem strLt_trans {a b c : String} (h1 : strLt a b = true)
    (h2 : strLt b c = true) : strLt a c = true :=
  charsLt_trans h1 h2

theorem strLt_trichotomy (a b : String) :
    strLt a b = true ∨ a = b ∨ strLt b a = true := by
  rcases charsLt_trichotomy a.toList b.toList with h | h | h
  · exact Or.inl h
  · exact Or.inr (Or.inl (String.ext h))
  · exact Or.inr (Or.inr h)

/-- Ascending order on `(category, type)` group keys (SQL
`ORDER BY category, type`). -/
def keyLE (a b : String × String) : Prop :=
  strLt a.1 b.1 = true ∨ (a.1 = b.1 ∧ (a.2 = b.2 ∨ strLt a.2 b.2 = true))

instance : DecidableRel keyLE := fun a b =>
  inferInstanceAs
    (Decidable (strLt a.1 b.1 = true ∨
      (a.1 = b.1 ∧ (a.2 = b.2 ∨ strLt a.2 b.2 = true))))

instance : IsTotal (String × String) keyLE := by
  constructor
  intro a b
  rcases strLt_trichotomy a.1 b.1 with h | h | h
  · exact Or.inl (Or.inl h)
  · rcases strLt_trichotomy a.2 b.2 with h2 | h2 | h2
    · exact Or.inl (Or.inr ⟨h, Or.inr h2⟩)
    · exact Or.inl (Or.inr ⟨h, Or.inl h2⟩)
    · exact Or.inr (Or.inr ⟨h.symm, Or.inr h2⟩)
  · exact Or.inr (Or.inl h)

instance : IsTrans (String × String) keyLE := by
  constructor
  intro a b c hab hbc
  rcases hab with h | ⟨h, h2⟩
  · rcases hbc with h3 | ⟨h3, _⟩
    · exact Or.inl (strLt_trans h h3)
    · exact Or.inl (h3 ▸ h)
  · rcases hbc with h3 | ⟨h3, h4⟩
    · exact Or.inl (h ▸ h3)
    · refine Or.inr ⟨h.trans h3, ?_⟩
      rcases h2 with h2 | h2
      · exact h2 ▸ h4
      · rcases h4 with h4 | h4
        · exact Or.inr (h4 ▸ h2)
        · exact Or.inr (strLt_trans h2 h4)

/-- The rows matching the composite predicate (shared by `query` and
`summarize`, which rebuild the same three clauses). -/
def matching (s : DBState) (p : QueryParameters) : List Expense :=
  ((s.rows.filter (dateCondition p)).filter (typeCondition p)).filter
    (catCondition p)

/-- The distinct `(category, type)` pairs among the matching rows, in the
output order `ORDER BY category, type`. -/
def groupKeys (l : List Expense) : List (String × String) :=
  List.insertionSort keyLE (l.map (fun e => (e.category, e.type))).dedup

/-- `func.sum(Expense.amount)` over one group. -/
def groupSum (l : List Expense) (k : String × String) : ℚ :=
  ((l.filter (fun e => decide (e.category = k.1 ∧ e.type = k.2))).map
    Expense.amount).sum

/-- The grouped aggregation `summarize` computes: one row per distinct
`(category, type)` pair of the matching rows, with the group's summed
amount, ordered ascending by `(category, type)`. -/
def summarizeGroups (s : DBState) (p : QueryParameters) :
    List ((String × String) × ℚ) :=
  (groupKeys (matching s p)).map (fun k => (k, groupSum (matching s p) k))

/-- `CRUDHandler.summarize`: the grouped sums projected to the select list
`(Expense.type, func.sum(Expense.amount))` — category is grouped and
ordered by but not selected. -/
def summarize (s : DBState) (p : QueryParameters) : List (String × ℚ) :=
  (summarizeGroups s p).map (fun g => (g.1.2, g.2))

/-! ## `CRUDHandler.add` and `CRUDHandler.clear` -/

/-- The row the insert materialises: the payload's fields plus the
sequence-assigned primary key. -/
def materialize (s : DBState) (d : ExpenseAdd) : Expense :=
  ⟨s.seq, d.date, d.type, d.category, d.amount, d.description⟩

/-- `CRUDHandler.add`: stage one new row (primary key assigned by the
sequence), commit, refresh.  The Python method body has no `return`
statement, so the call returns `None`: the second component is that
returned value. -/
def add (s : DBState) (d : ExpenseAdd) : DBState × Option Expense :=
  (⟨s.rows ++ [materialize s d], s.seq + 1⟩, none)

/-- `CRUDHandler.clear`: delete every row, then
`ALTER SEQUENCE expenses_id_seq RESTART` (the sequence restarts at its
start value 1), then commit. -/
def clear (_ : DBState) : DBState :=
  ⟨[], 1⟩

/-! ## `CRUDHandler.update`

Modelled from the spec: `CRUDHandler.update` is called by
`modules/api.py` (`@app.patch("/update")`) and is documented in the spec's
§4.7, but the `crud_handler.py` among the sources does not define it (nor
the `CRUDHandlerError` the API imports).  The model follows the spec's
words: look up by `id`; if absent fail with a not-found error naming the
missing id; else overwrite exactly the fields present in the patch,
commit, and return the updated record. -/

/-- Modelled from the spec: the `CRUDHandlerError` raised with not-found
semantics (api.py maps it to a 404 with detail naming the id). -/
inductive CRUDError where
  | notFound (missing : Nat)
deriving DecidableEq

/-- Modelled from the spec: overwrite exactly the present patch fields. -/
def applyPatch (e : Expense) (p : ExpenseUpdate) : Expense :=
  { e with
    date := p.date.getD e.date
    type := p.type.getD e.type
    category := p.category.getD e.category
    amount := p.amount.getD e.amount
    description := p.description.getD e.description }

/-- Modelled from the spec: `CRUDHandler.update` (spec §4.7). -/
def update (s : DBState) (i : Nat) (p : ExpenseUpdate) :
    Except CRUDError (DBState × Expense) :=
  match s.rows.find? (fun e => e.id == i) with
  | none => .error (.notFound i)
  | some e =>
    .ok (⟨s.rows.map (fun r => if r.id = i then applyPatch e p else r), s.seq⟩,
      applyPatch e p)

instance {ε α : Type} [DecidableEq ε] [DecidableEq α] :
    DecidableEq (Except ε α) := fun x y =>
  match x, y with
  | .error a, .error b =>
    if h : a = b then .isTrue (by rw [h])
    else .isFalse (by intro hh; cases hh; exact h rfl)
  | .error _, .ok _ => .isFalse (by intro h; cases h)
  | .ok _, .error _ => .isFalse (by intro h; cases h)
  | .ok a, .ok b =>
    if h : a = b then .isTrue (by rw [h])
    else .isFalse (by intro hh; cases hh; exact h rfl)

/-! ## Decimal digits

Executable helpers for the textual codecs of `load`/`save`: little-endian
decimal digits with enough fuel to be structurally recursive (so the
kernel can evaluate them), and their evaluation maps. -/

/-- Little-endian decimal digits of `n`, with explicit fuel. -/
def digitsAux : Nat → Nat → List Nat
  | 0, _ => []
  | fuel + 1, n => if n = 0 then [] else n % 10 :: digitsAux fuel (n / 10)

/-- Little-endian decimal digits of `n` (`[]` for 0). -/
def digitsLE (n : Nat) : List Nat :=
  digitsAux n n

/-- Value of little-endian digits. -/
def natFromLE : List Nat → Nat
  | [] => 0
  | d :: ds => d + 10 * natFromLE ds

/-- Value of big-endian digits. -/
def natFromBE (ds : List Nat) : Nat :=
  ds.foldl (fun a d => 10 * a + d) 0

/-- Big-endian digits of `n`, left-padded with zeros to width at least `w`. -/
def padBE (w n : Nat) : List Nat :=
  List.replicate (w - (digitsLE n).length) 0 ++ (digitsLE n).reverse

/-- A decimal digit as a character. -/
def digitChar : Nat → Char
  | 0 => '0'
  | 1 => '1'
  | 2 => '2'
  | 3 => '3'
  | 4 => '4'
  | 5 => '5'
  | 6 => '6'
  | 7 => '7'
  | 8 => '8'
  | 9 => '9'
  | _ + 10 => '0'

/-- A character read back as a decimal digit. -/
def charDigit (c : Char) : Option Nat :=
  if '0' ≤ c ∧ c ≤ '9' then some (c.toNat - 48) else none

/-- All characters read as digits, or `none`. -/
def charsToDigits : List Char → Option (List Nat)
  | [] => some []
  | c :: cs =>
    match charDigit c, charsToDigits cs with
    | some d, some ds => some (d :: ds)
    | _, _ => none

/-- A non-empty all-digit character run as a number (big-endian). -/
def parseNatChars (cs : List Char) : Option Nat :=
  if cs.isEmpty then none else (charsToDigits cs).map natFromBE

/-! ## Date codec

`save` writes `ex.date` through `str(datetime.date)`: zero-padded
`YYYY-MM-DD`.  `load` parses with
`datetime.strptime(arg, "%Y-%m-%d").date()` (`str2date`), which accepts
up to 4 year digits and up to 2 month/day digits and validates the
calendar ranges the `datetime.date` constructor enforces. -/

/-- Gregorian leap-year rule (as `datetime` implements it). -/
def isLeap (y : Nat) : Bool :=
  (y % 4 = 0 && y % 100 ≠ 0) || y % 400 = 0

/-- Days in a month (as `datetime` implements it). -/
def daysInMonth (y m : Nat) : Nat :=
  if m = 2 then (if isLeap y then 29 else 28)
  else if m = 4 ∨ m = 6 ∨ m = 9 ∨ m = 11 then 30
  else 31

/-- A date `datetime.date` can hold: year 1–9999, calendar-valid month
and day. -/
def ValidDate (d : Date) : Prop :=
  1 ≤ d.year ∧ d.year ≤ 9999 ∧ 1 ≤ d.month ∧ d.month ≤ 12 ∧
    1 ≤ d.day ∧ d.day ≤ daysInMonth d.year d.month

instance (d : Date) : Decidable (ValidDate d) :=
  inferInstanceAs (Decidable (_ ∧ _))

/-- `str(datetime.date)`: zero-padded `YYYY-MM-DD` characters. -/
def dateChars (d : Date) : List Char :=
  (padBE 4 d.year).map digitChar ++ '-' ::
    ((padBE 2 d.month).map digitChar ++ '-' ::
      (padBE 2 d.day).map digitChar)

/-- `str(datetime.date)` as a string. -/
def dateToStr (d : Date) : String :=
  String.mk (dateChars d)

/-- Split a character run at every dash. -/
def splitDash : List Char → List (List Char)
  | [] => [[]]
  | c :: cs =>
    if c = '-' then [] :: splitDash cs
    else
      match splitDash cs with
      | p :: ps => (c :: p) :: ps
      | [] => [[c]]

/-- `str2date` on characters: `strptime "%Y-%m-%d"` then the
`datetime.date` range checks; `none` models the `ValueError`. -/
def parseDateChars (cs : List Char) : Option Date :=
  match splitDash cs with
  | [ys, ms, ds] =>
    if ys.length = 0 ∨ 4 < ys.length ∨ ms.length = 0 ∨ 2 < ms.length ∨
        ds.length = 0 ∨ 2 < ds.length then none
    else
      match charsToDigits ys, charsToDigits ms, charsToDigits ds with
      | some yd, some md, some dd =>
        let y := natFromBE yd
        let m := natFromBE md
        let d := natFromBE dd
        if 1 ≤ y ∧ y ≤ 9999 ∧ 1 ≤ m ∧ m ≤ 12 ∧ 1 ≤ d ∧
            d ≤ daysInMonth y m then
          some ⟨y, m, d⟩
        else none
      | _, _, _ => none
  | _ => none

/-- `str2date` (`modules.crud_handler.str2date`). -/
def parseDate (s : String) : Option Date :=
  parseDateChars s.toList

/-! ## Amount codec

The `amount` column holds a binary float; every such value is an exact
decimal fraction, so amounts are modelled as rationals whose denominator
divides a power of ten.  `save` writes the amount as an unquoted decimal
numeral re-parseable to the same value; `load` hands the text to the
store, whose text-to-float cast accepts decimal numerals (an optional
sign, digits, an optional fractional part) and rejects anything else. -/

/-- The least exponent `k < 1100` with `q * 10^k` integral, if any.
Binary floats have denominator at most `2^1074`, which divides
`10^1074`, so every float amount is covered. -/
def decExp (q : ℚ) : Option Nat :=
  (List.range 1100).find? (fun k => (q * 10 ^ k).den = 1)

/-- An amount the float column can actually hold: its denominator
divides a power of ten (binary floats have denominator `2^e` with
`e ≤ 1074`, and `2^e ∣ 10^e`). -/
def DecimalAmt (q : ℚ) : Prop :=
  10 ^ 1099 % q.den = 0

instance (q : ℚ) : Decidable (DecimalAmt q) :=
  inferInstanceAs (Decidable (_ = 0))

/-- Digits of the magnitude `n / 10^k` with `k` fractional places (no
decimal point when `k = 0`). -/
def magChars (n k : Nat) : List Char :=
  ((padBE (k + 1) n).take ((padBE (k + 1) n).length - k)).map digitChar ++
    (if k = 0 then [] else
      '.' :: ((padBE (k + 1) n).drop ((padBE (k + 1) n).length - k)).map
        digitChar)

/-- The amount as the characters `save` writes: an optional minus sign
followed by the decimal magnitude. -/
def amountChars (q : ℚ) : List Char :=
  match decExp q with
  | some k => (if q < 0 then ['-'] else []) ++ magChars (q * 10 ^ k).num.natAbs k
  | none => ['0']

/-- The amount as the text `save` writes. -/
def amountToStr (q : ℚ) : String :=
  String.mk (amountChars q)

/-- Split a character run at the first dot, if any. -/
def splitDot : List Char → List Char × Option (List Char)
  | [] => ([], none)
  | c :: cs =>
    if c = '.' then ([], some cs)
    else
      match splitDot cs with
      | (pre, rest) => (c :: pre, rest)

/-- An unsigned decimal numeral as a rational. -/
def parseUnsigned (cs : List Char) : Option ℚ :=
  match splitDot cs with
  | (ip, none) => (parseNatChars ip).map (fun n => (n : ℚ))
  | (ip, some fp) =>
    match parseNatChars ip, parseNatChars fp with
    | some i, some f => some ((i : ℚ) + (f : ℚ) / 10 ^ fp.length)
    | _, _ => none

/-- A signed decimal numeral as a rational: the store's text-to-float
cast; `none` models the insert failing at commit. -/
def parseAmountChars (cs : List Char) : Option ℚ :=
  match cs with
  | [] => none
  | c :: rest =>
    if c = '-' then (parseUnsigned rest).map (fun q => -q)
    else parseUnsigned cs

/-- The amount text as a number. -/
def parseAmount (s : String) : Option ℚ :=
  parseAmountChars s.toList

/-! ## CSV transport

`save` writes with `csv.writer(..., quotechar='"', quoting=csv.QUOTE_NONNUMERIC)`:
every non-numeric field is wrapped in double quotes with embedded quotes
doubled, numeric fields are written bare, fields are joined with commas.
`load` reads with `csv.reader(csvfile, quotechar='"')`, which undoes that
framing and yields each record's field texts.  A file is modelled as the
list of its records' texts. -/

/-- A field value handed to `csv.writer`: a string, or the numeric
`amount`. -/
inductive CSVValue where
  | str (s : String)
  | num (q : ℚ)
deriving DecidableEq

/-- The field's text: what `csv.reader` yields back for it. -/
def CSVValue.text : CSVValue → String
  | .str s => s
  | .num q => amountToStr q

/-- Double every embedded quote character. -/
def escapeChars : List Char → List Char
  | [] => []
  | c :: cs =>
    if c = '"' then '"' :: '"' :: escapeChars cs else c :: escapeChars cs

/-- One field as written: non-numeric fields quoted, numeric fields bare. -/
def encodeFieldChars : CSVValue → List Char
  | .str s => '"' :: (escapeChars s.toList ++ ['"'])
  | .num q => amountChars q

/-- One record as written: fields joined with commas. -/
def encodeRecordChars : List CSVValue → List Char
  | [] => []
  | [f] => encodeFieldChars f
  | f :: fs => encodeFieldChars f ++ ',' :: encodeRecordChars fs

/-- `csv.reader`'s field splitting: outside quotes a comma ends the
field and a quote opens quoted mode; inside quotes a doubled quote is a
literal quote and a single one closes quoted mode.  Fuel is spent one
unit per step (each step consumes at least one character). -/
def decodeAux : Nat → Bool → List Char → List Char → List String
  | 0, _, acc, _ => [String.mk acc.reverse]
  | _ + 1, false, acc, [] => [String.mk acc.reverse]
  | fuel + 1, false, acc, c :: cs =>
    if c = ',' then String.mk acc.reverse :: decodeAux fuel false [] cs
    else if c = '"' then decodeAux fuel true acc cs
    else decodeAux fuel false (c :: acc) cs
  | _ + 1, true, acc, [] => [String.mk acc.reverse]
  | fuel + 1, true, acc, c :: cs =>
    if c = '"' then
      match cs with
      | c2 :: cs2 =>
        if c2 = '"' then decodeAux fuel true ('"' :: acc) cs2
        else decodeAux fuel false acc (c2 :: cs2)
      | [] => decodeAux fuel false acc []
    else decodeAux fuel true (c :: acc) cs

/-- One record's text as its list of field texts (an empty line yields
no fields, as `csv.reader` skips it). -/
def decodeRecord (line : String) : List String :=
  match line.toList with
  | [] => []
  | cs => decodeAux cs.length false [] cs

/-! ## `CRUDHandler.save` -/

/-- The writer row `save` emits for one expense:
`[ex.date, ex.type, ex.category, ex.amount, ex.description]`. -/
def expenseRecord (e : Expense) : List CSVValue :=
  [.str (dateToStr e.date), .str e.type, .str e.category, .num e.amount,
    .str e.description]

/-- The file `save` produces: one encoded record per row of
`query(QueryParameters())` (every row, ascending by date), no header. -/
def saveLines (s : DBState) : List String :=
  (query s ⟨none, none, none, none⟩).map
    (fun e => String.mk (encodeRecordChars (expenseRecord e)))

/-- `CRUDHandler.save`: the destination is opened in mode `"w"`, so its
previous content (if it existed) is discarded. -/
def save (s : DBState) (_prev : Option (List String)) : List String :=
  saveLines s

/-! ## `CRUDHandler.load` -/

/-- How a `load` call fails, mirroring the exceptions the Python code
lets escape: `fileNotFound` is `open`'s `FileNotFoundError`;
`indexError` is the bare `IndexError` from `row[i]` on a short row (its
message carries no row index or field name); `valueError` is
`strptime`'s `ValueError` (it shows the unparseable text, not the row);
`dbError` is the store rejecting a non-numeric `amount` text at commit. -/
inductive LoadError where
  | fileNotFound
  | indexError
  | valueError (bad : String)
  | dbError (bad : String)
deriving DecidableEq

/-- A staged insert: the `Expense(...)` constructor call's arguments.
The `amount` is still the raw field text — the store only coerces it at
commit. -/
structure StagedExpense where
  date : Date
  type : String
  category : String
  amountText : String
  description : String
deriving DecidableEq

/-- Stage one CSV record, evaluating exactly as the Python call
`Expense(date=str2date(row[0]), type=row[1], category=row[2],
amount=row[3], description=row[4])` does: `row[0]` is indexed first
(IndexError on an empty row), then parsed (ValueError), then
`row[1]`–`row[4]` are indexed (IndexError on fewer than 5 fields; extra
fields are ignored). -/
def stageRow (fields : List String) : Except LoadError StagedExpense :=
  match fields with
  | [] => .error .indexError
  | f0 :: rest =>
    match parseDate f0 with
    | none => .error (.valueError f0)
    | some d =>
      match rest with
      | f1 :: f2 :: f3 :: f4 :: _ => .ok ⟨d, f1, f2, f3, f4⟩
      | _ => .error .indexError

/-- Stage every record in order; the first failure aborts the loop
before anything is committed. -/
def stageRows : List (List String) → Except LoadError (List StagedExpense)
  | [] => .ok []
  | r :: rs =>
    match stageRow r with
    | .error err => .error err
    | .ok st =>
      match stageRows rs with
      | .error err => .error err
      | .ok sts => .ok (st :: sts)

/-- The single commit at the end of `load`: the store coerces each
staged amount text (failing the whole transaction on the first bad one)
and appends the rows in staging order, the sequence assigning ids. -/
def commitStaged (rows : List Expense) (seq : Nat) :
    List StagedExpense → Except LoadError (List Expense × Nat)
  | [] => .ok (rows, seq)
  | st :: sts =>
    match parseAmount st.amountText with
    | none => .error (.dbError st.amountText)
    | some a =>
      commitStaged (rows ++ [⟨seq, st.date, st.type, st.category, a,
        st.description⟩]) (seq + 1) sts

/-- `CRUDHandler.load`: open the file (`none` models a missing file),
read its records, stage one insert per record, and commit them as a
single transaction at the end; any failure leaves the committed store
unchanged. -/
def load (s : DBState) (file : Option (List String)) :
    Except LoadError DBState :=
  match file with
  | none => .error .fileNotFound
  | some lines =>
    match stageRows (lines.map decodeRecord) with
    | .error err => .error err
    | .ok staged =>
      match commitStaged s.rows s.seq staged with
      | .error err => .error err
      | .ok (rows, seq) => .ok ⟨rows, seq⟩

/-! ## Digit lemmas -/

theorem digitsAux_zero : ∀ f, digitsAux f 0 = []
  | 0 => rfl
  | _ + 1 => by simp [digitsAux]

theorem digitsAux_congr : ∀ f g n, n ≤ f → n ≤ g →
    digitsAux f n = digitsAux g n
  | 0, g, n, h1, _ => by
    have : n = 0 := Nat.le_zero.mp h1
    subst this
    rw [digitsAux_zero, digitsAux_zero]
  | f + 1, g, n, h1, h2 => by
    rcases Nat.eq_zero_or_pos n with rfl | hn
    · rw [digitsAux_zero, digitsAux_zero]
    · rcases g with _ | g
      · omega
      · have hne : n ≠ 0 := Nat.pos_iff_ne_zero.mp hn
        simp only [digitsAux, if_neg hne]
        have hd : n / 10 < n := Nat.div_lt_self hn (by omega)
        exact congrArg _ (digitsAux_congr f g (n / 10) (by omega) (by omega))

theorem digitsLE_cons {n : Nat} (h : n ≠ 0) :
    digitsLE n = n % 10 :: digitsLE (n / 10) := by
  rcases n with _ | m
  · exact absurd rfl h
  · show digitsAux (m + 1) (m + 1) = _
    simp only [digitsAux, if_neg h]
    refine congrArg _ (digitsAux_congr m ((m + 1) / 10) ((m + 1) / 10) ?_ le_rfl)
    have : (m + 1) / 10 < m + 1 := Nat.div_lt_self (by omega) (by omega)
    omega

theorem natFromLE_digitsLE (n : Nat) : natFromLE (digitsLE n) = n := by
  induction n using Nat.strong_induction_on with
  | _ n ih =>
    rcases Nat.eq_zero_or_pos n with rfl | hn
    · rfl
    · rw [digitsLE_cons (Nat.pos_iff_ne_zero.mp hn)]
      show n % 10 + 10 * natFromLE (digitsLE (n / 10)) = n
      rw [ih (n / 10) (Nat.div_lt_self hn (by omega))]
      omega

theorem digitsAux_lt_ten : ∀ f n d, d ∈ digitsAux f n → d < 10
  | 0, _, _, hd => by cases hd
  | f + 1, n, d, hd => by
    by_cases h : n = 0
    · rw [h, digitsAux_zero] at hd
      cases hd
    · simp only [digitsAux, if_neg h, List.mem_cons] at hd
      rcases hd with rfl | hd
      · omega
      · exact digitsAux_lt_ten f (n / 10) d hd

theorem digitsLE_lt_ten {n : Nat} : ∀ d ∈ digitsLE n, d < 10 :=
  fun d hd => digitsAux_lt_ten n n d hd

theorem digitsLE_length_le {n k : Nat} (h : n < 10 ^ k) :
    (digitsLE n).length ≤ k := by
  induction k generalizing n with
  | zero =>
    have : n = 0 := by simpa using h
    simp [this, digitsLE, digitsAux]
  | succ k ih =>
    rcases Nat.eq_zero_or_pos n with rfl | hn
    · simp [digitsLE, digitsAux]
    · rw [digitsLE_cons (Nat.pos_iff_ne_zero.mp hn)]
      have hd : n / 10 < 10 ^ k := by
        rw [Nat.div_lt_iff_lt_mul (by omega)]
        calc n < 10 ^ (k + 1) := h
        _ = 10 ^ k * 10 := by ring
      simpa using ih hd

theorem natFromBE_step (ds : List Nat) (a : Nat) :
    ds.foldl (fun x d => 10 * x + d) a =
      a * 10 ^ ds.length + natFromBE ds := by
  induction ds generalizing a with
  | nil => simp [natFromBE]
  | cons d ds ih =>
    show ds.foldl _ (10 * a + d) = _
    rw [ih (10 * a + d)]
    have h2 : natFromBE (d :: ds) = d * 10 ^ ds.length + natFromBE ds := by
      show ds.foldl _ (10 * 0 + d) = _
      rw [ih (10 * 0 + d)]
      ring_nf
    rw [h2]
    simp [List.length_cons]
    ring

theorem natFromBE_append (xs ys : List Nat) :
    natFromBE (xs ++ ys) = natFromBE xs * 10 ^ ys.length + natFromBE ys := by
  show (xs ++ ys).foldl _ 0 = _
  rw [List.foldl_append, natFromBE_step]
  rfl

theorem natFromBE_reverse (l : List Nat) :
    natFromBE l.reverse = natFromLE l := by
  induction l with
  | nil => rfl
  | cons d ds ih =>
    rw [List.reverse_cons, natFromBE_append, ih]
    show _ = d + 10 * natFromLE ds
    have : natFromBE [d] = d := by simp [natFromBE]
    rw [this]
    simp
    ring

theorem natFromBE_replicate_zero (k : Nat) :
    natFromBE (List.replicate k 0) = 0 := by
  induction k with
  | zero => rfl
  | succ k ih =>
    show natFromBE (0 :: List.replicate k 0) = 0
    have := natFromBE_append [0] (List.replicate k 0)
    simp only [List.singleton_append] at this
    rw [this, ih]
    have : natFromBE [0] = 0 := rfl
    rw [this]
    ring

theorem natFromBE_padBE (w n : Nat) : natFromBE (padBE w n) = n := by
  rw [padBE, natFromBE_append, natFromBE_replicate_zero, natFromBE_reverse,
    natFromLE_digitsLE]
  ring

theorem padBE_length {w n : Nat} (h : n < 10 ^ w) :
    (padBE w n).length = w := by
  have hl := digitsLE_length_le h
  simp [padBE]
  omega

theorem padBE_lt_ten {w n : Nat} : ∀ d ∈ padBE w n, d < 10 := by
  intro d hd
  rcases List.mem_append.mp hd with hd | hd
  · have := List.eq_of_mem_replicate hd
    omega
  · exact digitsLE_lt_ten d (List.mem_reverse.mp hd)

theorem charDigit_digitChar {d : Nat} (h : d < 10) :
    charDigit (digitChar d) = some d := by
  interval_cases d <;> decide

theorem charsToDigits_map {ds : List Nat} (h : ∀ d ∈ ds, d < 10) :
    charsToDigits (ds.map digitChar) = some ds := by
  induction ds with
  | nil => rfl
  | cons d ds ih =>
    have h1 : d < 10 := h d (List.mem_cons_self d ds)
    have h2 := ih (fun x hx => h x (List.mem_cons_of_mem d hx))
    simp only [List.map_cons, charsToDigits, charDigit_digitChar h1, h2]

theorem parseNatChars_map {ds : List Nat} (hne : ds ≠ [])
    (h : ∀ d ∈ ds, d < 10) :
    parseNatChars (ds.map digitChar) = some (natFromBE ds) := by
  have : (ds.map digitChar).isEmpty = false := by
    rcases ds with _ | ⟨d, ds⟩
    · exact absurd rfl hne
    · rfl
  rw [parseNatChars, this, charsToDigits_map h]
  rfl

theorem digitChar_ne_dash (d : Nat) : digitChar d ≠ '-' := by
  rcases d with _|_|_|_|_|_|_|_|_|_|d <;>
    first
    | decide
    | exact (by decide : ('0' : Char) ≠ '-')

theorem digitChar_ne_dot (d : Nat) : digitChar d ≠ '.' := by
  rcases d with _|_|_|_|_|_|_|_|_|_|d <;>
    first
    | decide
    | exact (by decide : ('0' : Char) ≠ '.')

theorem digitChar_ne_comma (d : Nat) : digitChar d ≠ ',' := by
  rcases d with _|_|_|_|_|_|_|_|_|_|d <;>
    first
    | decide
    | exact (by decide : ('0' : Char) ≠ ',')

theorem digitChar_ne_quote (d : Nat) : digitChar d ≠ '"' := by
  rcases d with _|_|_|_|_|_|_|_|_|_|d <;>
    first
    | decide
    | exact (by decide : ('0' : Char) ≠ '"')

/-! ## Date codec lemmas -/

theorem splitDash_no_dash {a : List Char} (h : '-' ∉ a) :
    splitDash a = [a] := by
  induction a with
  | nil => rfl
  | cons c cs ih =>
    have hc : c ≠ '-' := fun hc => h (hc ▸ List.mem_cons_self c cs)
    have ht : '-' ∉ cs := fun ht => h (List.mem_cons_of_mem c ht)
    simp only [splitDash, if_neg hc, ih ht]

theorem splitDash_append {a : List Char} (rest : List Char) (h : '-' ∉ a) :
    splitDash (a ++ '-' :: rest) = a :: splitDash rest := by
  induction a with
  | nil => simp [splitDash]
  | cons c cs ih =>
    have hc : c ≠ '-' := fun hc => h (hc ▸ List.mem_cons_self c cs)
    have ht : '-' ∉ cs := fun ht => h (List.mem_cons_of_mem c ht)
    simp only [List.cons_append, splitDash, if_neg hc, List.append_eq]
    rw [ih ht]

theorem dash_not_mem_map_digitChar (ds : List Nat) :
    '-' ∉ ds.map digitChar := by
  intro h
  rcases List.mem_map.mp h with ⟨d, _, hd⟩
  exact digitChar_ne_dash d hd

theorem parseDateChars_dateChars {d : Date} (h : ValidDate d) :
    parseDateChars (dateChars d) = some d := by
  obtain ⟨h1, h2, h3, h4, h5, h6⟩ := h
  have hy : d.year < 10 ^ 4 := by omega
  have hm : d.month < 10 ^ 2 := by omega
  have hd6 : d.day ≤ 31 := by
    have : daysInMonth d.year d.month ≤ 31 := by
      rw [daysInMonth]
      split_ifs <;> omega
    omega
  have hdd : d.day < 10 ^ 2 := by omega
  have e1 : splitDash (dateChars d) =
      [(padBE 4 d.year).map digitChar, (padBE 2 d.month).map digitChar,
        (padBE 2 d.day).map digitChar] := by
    rw [dateChars, splitDash_append _ (dash_not_mem_map_digitChar _),
      splitDash_append _ (dash_not_mem_map_digitChar _),
      splitDash_no_dash (dash_not_mem_map_digitChar _)]
  have ly : ((padBE 4 d.year).map digitChar).length = 4 := by
    rw [List.length_map, padBE_length hy]
  have lm : ((padBE 2 d.month).map digitChar).length = 2 := by
    rw [List.length_map, padBE_length hm]
  have ld : ((padBE 2 d.day).map digitChar).length = 2 := by
    rw [List.length_map, padBE_length hdd]
  rw [parseDateChars, e1]
  dsimp only
  rw [if_neg (by rw [ly, lm, ld]; norm_num)]
  rw [charsToDigits_map padBE_lt_ten, charsToDigits_map padBE_lt_ten,
    charsToDigits_map padBE_lt_ten]
  dsimp only
  simp only [natFromBE_padBE]
  rw [if_pos ⟨h1, h2, h3, h4, h5, h6⟩]

theorem parseDate_dateToStr {d : Date} (h : ValidDate d) :
    parseDate (dateToStr d) = some d := by
  rw [parseDate, dateToStr]
  show parseDateChars (dateChars d) = some d
  exact parseDateChars_dateChars h

/-! ## Amount codec lemmas -/

theorem padBE_length_ge (w n : Nat) : w ≤ (padBE w n).length := by
  simp [padBE]
  omega

theorem den_mul_pow_eq_one {q : ℚ} {e : Nat} (h : q.den ∣ 10 ^ e) :
    (q * 10 ^ e).den = 1 := by
  have hc : ((10 ^ e / q.den : ℕ) : ℚ) * (q.den : ℚ) = (10 : ℚ) ^ e := by
    have h2 : (10 ^ e / q.den) * q.den = 10 ^ e := Nat.div_mul_cancel h
    exact_mod_cast congrArg (fun x : ℕ => (x : ℚ)) h2
  have key : q * 10 ^ e = (((q.num * ((10 ^ e / q.den : ℕ) : ℤ)) : ℤ) : ℚ) := by
    calc q * 10 ^ e = q * (((10 ^ e / q.den : ℕ) : ℚ) * (q.den : ℚ)) := by
          rw [hc]
    _ = q * (q.den : ℚ) * ((10 ^ e / q.den : ℕ) : ℚ) := by ring
    _ = (q.num : ℚ) * ((10 ^ e / q.den : ℕ) : ℚ) := by
          rw [Rat.mul_den_eq_num]
    _ = (((q.num * ((10 ^ e / q.den : ℕ) : ℤ)) : ℤ) : ℚ) := by
          rw [Int.cast_mul, Int.cast_natCast]
  rw [key, Rat.den_intCast]

theorem decExp_spec {q : ℚ} (h : DecimalAmt q) :
    ∃ k, decExp q = some k ∧ (q * 10 ^ k).den = 1 := by
  have hk : (q * 10 ^ 1099).den = 1 :=
    den_mul_pow_eq_one (Nat.dvd_of_mod_eq_zero h)
  have hs : (decExp q).isSome = true := by
    rw [decExp, List.find?_isSome]
    exact ⟨1099, by simp [List.mem_range], by simp [hk]⟩
  rcases Option.isSome_iff_exists.mp hs with ⟨k, hfind⟩
  refine ⟨k, hfind, ?_⟩
  have := List.find?_some hfind
  simpa using this

theorem splitDot_no_dot {a : List Char} (h : '.' ∉ a) :
    splitDot a = (a, none) := by
  induction a with
  | nil => rfl
  | cons c cs ih =>
    have hc : c ≠ '.' := fun hc => h (hc ▸ List.mem_cons_self c cs)
    have ht : '.' ∉ cs := fun ht => h (List.mem_cons_of_mem c ht)
    simp only [splitDot, if_neg hc, ih ht]

theorem splitDot_append {a : List Char} (b : List Char) (h : '.' ∉ a) :
    splitDot (a ++ '.' :: b) = (a, some b) := by
  induction a with
  | nil => simp [splitDot]
  | cons c cs ih =>
    have hc : c ≠ '.' := fun hc => h (hc ▸ List.mem_cons_self c cs)
    have ht : '.' ∉ cs := fun ht => h (List.mem_cons_of_mem c ht)
    simp only [List.cons_append, splitDot, if_neg hc, List.append_eq]
    rw [ih ht]

theorem dot_not_mem_map_digitChar (ds : List Nat) :
    '.' ∉ ds.map digitChar := by
  intro h
  rcases List.mem_map.mp h with ⟨d, _, hd⟩
  exact digitChar_ne_dot d hd

theorem parseUnsigned_split_none {cs ip : List Char}
    (h : splitDot cs = (ip, none)) :
    parseUnsigned cs = (parseNatChars ip).map (fun n => (n : ℚ)) := by
  rw [parseUnsigned, h]

theorem parseUnsigned_split_some {cs ip fp : List Char}
    (h : splitDot cs = (ip, some fp)) :
    parseUnsigned cs =
      match parseNatChars ip, parseNatChars fp with
      | some i, some f => some ((i : ℚ) + (f : ℚ) / 10 ^ fp.length)
      | _, _ => none := by
  rw [parseUnsigned, h]

theorem parseUnsigned_magChars (a k : Nat) :
    parseUnsigned (magChars a k) = some ((a : ℚ) / 10 ^ k) := by
  rcases Nat.eq_zero_or_pos k with rfl | hk
  · have hlen := padBE_length_ge 1 a
    have hmag : magChars a 0 = (padBE 1 a).map digitChar := by
      rw [magChars, if_pos rfl, List.append_nil, Nat.sub_zero,
        List.take_length]
    have hne : padBE 1 a ≠ [] := by
      intro hnil
      have := congrArg List.length hnil
      simp only [List.length_nil] at this
      omega
    rw [hmag,
      parseUnsigned_split_none
        (splitDot_no_dot (dot_not_mem_map_digitChar (padBE 1 a))),
      parseNatChars_map hne padBE_lt_ten]
    show some ((natFromBE (padBE 1 a) : ℚ)) = some ((a : ℚ) / 10 ^ 0)
    rw [natFromBE_padBE]
    norm_num
  · have hlen := padBE_length_ge (k + 1) a
    have hkne : k ≠ 0 := Nat.pos_iff_ne_zero.mp hk
    set ds := padBE (k + 1) a with hds
    set iDs := ds.take (ds.length - k) with hiDs
    set fDs := ds.drop (ds.length - k) with hfDs
    have hiL : iDs.length = ds.length - k := by
      rw [hiDs, List.length_take]
      omega
    have hfL : fDs.length = k := by
      rw [hfDs, List.length_drop]
      omega
    have hisub : ∀ d ∈ iDs, d < 10 :=
      fun d hd => padBE_lt_ten d (List.take_subset _ _ hd)
    have hfsub : ∀ d ∈ fDs, d < 10 :=
      fun d hd => padBE_lt_ten d (List.drop_subset _ _ hd)
    have hine : iDs ≠ [] := by
      intro hnil
      have := congrArg List.length hnil
      rw [hiL] at this
      simp only [List.length_nil] at this
      omega
    have hfne : fDs ≠ [] := by
      intro hnil
      have := congrArg List.length hnil
      rw [hfL] at this
      simp only [List.length_nil] at this
      omega
    have hmag : magChars a k =
        iDs.map digitChar ++ '.' :: fDs.map digitChar := by
      rw [magChars, if_neg hkne, ← hds, ← hiDs, ← hfDs]
    rw [hmag,
      parseUnsigned_split_some
        (splitDot_append _ (dot_not_mem_map_digitChar iDs)),
      parseNatChars_map hine hisub, parseNatChars_map hfne hfsub]
    have hval : a = natFromBE iDs * 10 ^ k + natFromBE fDs := by
      have h3 : natFromBE (iDs ++ fDs) = a := by
        rw [hiDs, hfDs, List.take_append_drop, hds, natFromBE_padBE]
      rw [← h3, natFromBE_append, hfL]
    have hfl2 : (fDs.map digitChar).length = k := by
      rw [List.length_map, hfL]
    show some ((natFromBE iDs : ℚ) +
      (natFromBE fDs : ℚ) / 10 ^ (fDs.map digitChar).length) =
      some ((a : ℚ) / 10 ^ k)
    rw [hfl2, hval]
    congr 1
    push_cast
    have h10 : ((10 : ℚ) ^ k) ≠ 0 := by positivity
    field_simp

theorem magChars_cons (a k : Nat) :
    ∃ c cs, magChars a k = c :: cs ∧ c ≠ '-' := by
  have hlen := padBE_length_ge (k + 1) a
  have hiL : ((padBE (k + 1) a).take ((padBE (k + 1) a).length - k)).length =
      (padBE (k + 1) a).length - k := by
    rw [List.length_take]
    omega
  rcases he : (padBE (k + 1) a).take ((padBE (k + 1) a).length - k)
    with _ | ⟨d0, t⟩
  · rw [he] at hiL
    simp only [List.length_nil] at hiL
    omega
  · refine ⟨digitChar d0, t.map digitChar ++
      (if k = 0 then [] else
        '.' :: ((padBE (k + 1) a).drop ((padBE (k + 1) a).length - k)).map
          digitChar),
      ?_, digitChar_ne_dash d0⟩
    rw [magChars, he]
    simp

theorem num_cast_of_den_one {r : ℚ} (h : r.den = 1) : ((r.num : ℚ)) = r :=
  (Rat.den_eq_one_iff r).mp h

theorem parseAmountChars_cons_dash (cs : List Char) :
    parseAmountChars ('-' :: cs) = (parseUnsigned cs).map (fun q => -q) := by
  rw [parseAmountChars]
  show (if '-' = '-' then (parseUnsigned cs).map (fun q => -q)
    else parseUnsigned ('-' :: cs)) = (parseUnsigned cs).map (fun q => -q)
  rw [if_pos rfl]

theorem parseAmountChars_cons_nodash {c : Char} (cs : List Char)
    (h : c ≠ '-') : parseAmountChars (c :: cs) = parseUnsigned (c :: cs) := by
  rw [parseAmountChars]
  show (if c = '-' then (parseUnsigned cs).map (fun q => -q)
    else parseUnsigned (c :: cs)) = parseUnsigned (c :: cs)
  rw [if_neg h]

theorem parseAmountChars_amountChars {q : ℚ} (h : DecimalAmt q) :
    parseAmountChars (amountChars q) = some q := by
  rcases decExp_spec h with ⟨k, hfind, hden⟩
  have hqn : ((q * 10 ^ k).num : ℚ) = q * 10 ^ k := num_cast_of_den_one hden
  have h10 : ((10 : ℚ) ^ k) ≠ 0 := by positivity
  set n := (q * 10 ^ k).num with hn
  have hq : q = (n : ℚ) / 10 ^ k := by
    rw [eq_div_iff h10, hqn]
  by_cases hneg : q < 0
  · have hnlt : n < 0 := by
      by_contra hge
      push_neg at hge
      have h2 : (0 : ℚ) ≤ (n : ℚ) := by exact_mod_cast hge
      have h3 : (0 : ℚ) ≤ (n : ℚ) / 10 ^ k := div_nonneg h2 (by positivity)
      rw [hq] at hneg
      exact absurd hneg (not_lt.mpr h3)
    have hcast : ((n.natAbs : ℚ)) = -(n : ℚ) := by
      rw [Int.cast_natAbs, abs_of_neg hnlt, Int.cast_neg]
    have hac : amountChars q = '-' :: magChars n.natAbs k := by
      rw [amountChars, hfind]
      show (if q < 0 then ['-'] else []) ++
        magChars (q * 10 ^ k).num.natAbs k = '-' :: magChars n.natAbs k
      rw [if_pos hneg, List.singleton_append, ← hn]
    rw [hac, parseAmountChars_cons_dash, parseUnsigned_magChars]
    have hval : -((n.natAbs : ℚ) / 10 ^ k) = q := by
      rw [hcast, hq]
      ring
    show some (-((n.natAbs : ℚ) / 10 ^ k)) = some q
    rw [hval]
  · have hnn : 0 ≤ n := by
      push_neg at hneg
      have h2 : (0 : ℚ) ≤ q * 10 ^ k := by positivity
      rw [← hqn] at h2
      exact_mod_cast h2
    have hcast : ((n.natAbs : ℚ)) = (n : ℚ) := by
      rw [Int.cast_natAbs, abs_of_nonneg hnn]
    have hac : amountChars q = magChars n.natAbs k := by
      rw [amountChars, hfind]
      show (if q < 0 then ['-'] else []) ++
        magChars (q * 10 ^ k).num.natAbs k = magChars n.natAbs k
      rw [if_neg hneg, List.nil_append, ← hn]
    rcases magChars_cons n.natAbs k with ⟨c, cs, hmag, hc⟩
    rw [hac, hmag, parseAmountChars_cons_nodash cs hc, ← hmag,
      parseUnsigned_magChars, hcast, ← hq]

/-- Strings built from explicit characters read back as those
characters. -/
theorem toList_mk (cs : List Char) : (String.mk cs).toList = cs :=
  rfl

/-- The round trip at the string level: the amount text `save` writes
parses back (through the store's cast) to the same stored value. -/
theorem parseAmount_amountToStr {q : ℚ} (h : DecimalAmt q) :
    parseAmount (amountToStr q) = some q := by
  rw [parseAmount, amountToStr, toList_mk]
  exact parseAmountChars_amountChars h

/-! ## CSV codec lemmas -/

theorem decodeAux_comma (f : Nat) (acc cs : List Char) :
    decodeAux (f + 1) false acc (',' :: cs) =
      String.mk acc.reverse :: decodeAux f false [] cs := by
  simp [decodeAux]

theorem decodeAux_open_quote (f : Nat) (acc cs : List Char) :
    decodeAux (f + 1) false acc ('"' :: cs) = decodeAux f true acc cs := by
  simp [decodeAux]

theorem decodeAux_plain (f : Nat) (acc cs : List Char) {c : Char}
    (h1 : c ≠ ',') (h2 : c ≠ '"') :
    decodeAux (f + 1) false acc (c :: cs) =
      decodeAux f false (c :: acc) cs := by
  simp [decodeAux, h1, h2]

theorem decodeAux_quote_quote (f : Nat) (acc cs : List Char) :
    decodeAux (f + 1) true acc ('"' :: '"' :: cs) =
      decodeAux f true ('"' :: acc) cs := by
  simp [decodeAux]

theorem decodeAux_quote_close (f : Nat) (acc : List Char) {c2 : Char}
    (cs : List Char) (h : c2 ≠ '"') :
    decodeAux (f + 1) true acc ('"' :: c2 :: cs) =
      decodeAux f false acc (c2 :: cs) := by
  simp [decodeAux, h]

theorem decodeAux_quote_end (f : Nat) (acc : List Char) :
    decodeAux (f + 1) true acc ['"'] = decodeAux f false acc [] := by
  simp [decodeAux]

theorem decodeAux_quoted_other (f : Nat) (acc cs : List Char) {c : Char}
    (h : c ≠ '"') :
    decodeAux (f + 1) true acc (c :: cs) =
      decodeAux f true (c :: acc) cs := by
  simp [decodeAux, h]

theorem decodeAux_nil (f : Nat) (m : Bool) (acc : List Char) :
    decodeAux f m acc [] = [String.mk acc.reverse] := by
  rcases f with _ | f <;> rcases m with _ | _ <;> rfl

theorem decodeAux_congr : ∀ f g (m : Bool) acc (cs : List Char),
    cs.length ≤ f → cs.length ≤ g →
    decodeAux f m acc cs = decodeAux g m acc cs
  | f, g, m, acc, [], _, _ => by rw [decodeAux_nil, decodeAux_nil]
  | 0, _, _, _, _ :: _, hf, _ => by simp at hf
  | _ + 1, 0, _, _, _ :: _, _, hg => by simp at hg
  | f + 1, g + 1, false, acc, c :: cs, hf, hg => by
    simp only [List.length_cons] at hf hg
    by_cases h1 : c = ','
    · subst h1
      rw [decodeAux_comma, decodeAux_comma,
        decodeAux_congr f g false [] cs (by omega) (by omega)]
    · by_cases h2 : c = '"'
      · subst h2
        rw [decodeAux_open_quote, decodeAux_open_quote]
        exact decodeAux_congr f g true acc cs (by omega) (by omega)
      · rw [decodeAux_plain f acc cs h1 h2, decodeAux_plain g acc cs h1 h2]
        exact decodeAux_congr f g false (c :: acc) cs (by omega) (by omega)
  | f + 1, g + 1, true, acc, c :: cs, hf, hg => by
    simp only [List.length_cons] at hf hg
    by_cases h1 : c = '"'
    · subst h1
      rcases cs with _ | ⟨c2, cs2⟩
      · rw [decodeAux_quote_end, decodeAux_quote_end,
          decodeAux_nil, decodeAux_nil]
      · simp only [List.length_cons] at hf hg
        by_cases h2 : c2 = '"'
        · subst h2
          rw [decodeAux_quote_quote, decodeAux_quote_quote]
          exact decodeAux_congr f g true ('"' :: acc) cs2 (by omega) (by omega)
        · rw [decodeAux_quote_close f acc cs2 h2,
            decodeAux_quote_close g acc cs2 h2]
          exact decodeAux_congr f g false acc (c2 :: cs2) (by simp; omega)
            (by simp; omega)
    · rw [decodeAux_quoted_other f acc cs h1, decodeAux_quoted_other g acc cs h1]
      exact decodeAux_congr f g true (c :: acc) cs (by omega) (by omega)

theorem decodeAux_escape : ∀ (s : List Char) (f : Nat) (acc rest : List Char),
    (escapeChars s).length + 1 + rest.length ≤ f →
    (∀ c2 cs2, rest = c2 :: cs2 → c2 ≠ '"') →
    decodeAux f true acc (escapeChars s ++ '"' :: rest) =
      decodeAux rest.length false (s.reverse ++ acc) rest
  | [], f, acc, rest, hf, hrest => by
    simp only [escapeChars, List.length_nil, List.nil_append,
      List.reverse_nil] at hf ⊢
    rcases f with _ | f
    · omega
    · rcases rest with _ | ⟨c2, cs2⟩
      · rw [decodeAux_quote_end, decodeAux_nil, decodeAux_nil]
      · rw [decodeAux_quote_close f acc cs2 (hrest c2 cs2 rfl)]
        exact decodeAux_congr f (c2 :: cs2).length false acc (c2 :: cs2)
          (by simp at hf ⊢; omega) le_rfl
  | c :: s, f, acc, rest, hf, hrest => by
    by_cases hc : c = '"'
    · subst hc
      have he : escapeChars ('"' :: s) = '"' :: '"' :: escapeChars s := by
        simp [escapeChars]
      rw [he] at hf ⊢
      simp only [List.length_cons] at hf
      rcases f with _ | f
      · omega
      · rw [List.cons_append, List.cons_append, decodeAux_quote_quote]
        rw [decodeAux_escape s f ('"' :: acc) rest (by omega) hrest]
        simp
    · have he : escapeChars (c :: s) = c :: escapeChars s := by
        simp [escapeChars, if_neg hc]
      rw [he] at hf ⊢
      simp only [List.length_cons] at hf
      rcases f with _ | f
      · omega
      · rw [List.cons_append, decodeAux_quoted_other f acc _ hc]
        rw [decodeAux_escape s f (c :: acc) rest (by omega) hrest]
        simp

theorem decodeAux_unquoted : ∀ (s : List Char) (f : Nat) (acc rest : List Char),
    s.length + rest.length ≤ f →
    (∀ c ∈ s, c ≠ ',' ∧ c ≠ '"') →
    decodeAux f false acc (s ++ rest) =
      decodeAux rest.length false (s.reverse ++ acc) rest
  | [], f, acc, rest, hf, _ => by
    simp only [List.nil_append, List.reverse_nil, List.length_nil] at hf ⊢
    exact decodeAux_congr f rest.length false acc rest (by omega) le_rfl
  | c :: s, f, acc, rest, hf, hs => by
    have hc := hs c (List.mem_cons_self c s)
    simp only [List.length_cons] at hf
    rcases f with _ | f
    · omega
    · rw [List.cons_append, decodeAux_plain f acc _ hc.1 hc.2]
      rw [decodeAux_unquoted s f (c :: acc) rest (by omega)
        (fun x hx => hs x (List.mem_cons_of_mem c hx))]
      simp

theorem amountChars_safe (q : ℚ) :
    ∀ c ∈ amountChars q, c ≠ ',' ∧ c ≠ '"' := by
  intro c hc
  rw [amountChars] at hc
  rcases hde : decExp q with _ | k
  · rw [hde] at hc
    simp only [List.mem_singleton] at hc
    subst hc
    exact ⟨by decide, by decide⟩
  · rw [hde] at hc
    have hmag : ∀ x ∈ magChars (q * 10 ^ k).num.natAbs k,
        x ≠ ',' ∧ x ≠ '"' := by
      intro x hx
      rw [magChars] at hx
      rcases List.mem_append.mp hx with hx | hx
      · rcases List.mem_map.mp hx with ⟨d, _, rfl⟩
        exact ⟨digitChar_ne_comma d, digitChar_ne_quote d⟩
      · by_cases hk : k = 0
        · rw [if_pos hk] at hx
          cases hx
        · rw [if_neg hk] at hx
          rcases List.mem_cons.mp hx with rfl | hx
          · exact ⟨by decide, by decide⟩
          · rcases List.mem_map.mp hx with ⟨d, _, rfl⟩
            exact ⟨digitChar_ne_comma d, digitChar_ne_quote d⟩
    rcases List.mem_append.mp hc with hc | hc
    · by_cases hq : q < 0
      · rw [if_pos hq] at hc
        simp only [List.mem_singleton] at hc
        subst hc
        exact ⟨by decide, by decide⟩
      · rw [if_neg hq] at hc
        cases hc
    · exact hmag c hc

theorem mk_toList (s : String) : String.mk s.toList = s :=
  rfl

/-- Decoding one encoded field followed by the rest of the record: a
quoted (string) field. -/
theorem decode_str_field (s : String) (tail : List Char) (f : Nat)
    (hf : (escapeChars s.toList).length + 2 + tail.length ≤ f)
    (htail : ∀ c2 cs2, tail = c2 :: cs2 → c2 ≠ '"') :
    decodeAux f false [] (encodeFieldChars (.str s) ++ tail) =
      decodeAux tail.length false s.toList.reverse tail := by
  rw [encodeFieldChars]
  rcases f with _ | f
  · omega
  · rw [List.cons_append, decodeAux_open_quote, List.append_assoc,
      List.singleton_append,
      decodeAux_escape s.toList f [] tail (by omega) htail]
    rw [List.append_nil]

/-- Decoding one encoded field followed by the rest of the record: a
bare (numeric) field. -/
theorem decode_num_field (q : ℚ) (tail : List Char) (f : Nat)
    (hf : (amountChars q).length + tail.length ≤ f) :
    decodeAux f false [] (encodeFieldChars (.num q) ++ tail) =
      decodeAux tail.length false (amountChars q).reverse tail := by
  rw [encodeFieldChars]
  rw [decodeAux_unquoted (amountChars q) f [] tail (by omega)
    (amountChars_safe q)]
  rw [List.append_nil]

theorem encodeRecordChars_cons (v : CSVValue) {fs : List CSVValue}
    (h : fs ≠ []) : encodeRecordChars (v :: fs) =
      encodeFieldChars v ++ ',' :: encodeRecordChars fs := by
  rcases fs with _ | ⟨f2, fs⟩
  · exact absurd rfl h
  · rfl

theorem encodeRecordChars_singleton (v : CSVValue) :
    encodeRecordChars [v] = encodeFieldChars v ++ [] := by
  rw [List.append_nil]
  rfl

theorem decode_encodeRecord : ∀ fs : List CSVValue, fs ≠ [] →
    ∀ f, (encodeRecordChars fs).length ≤ f →
    decodeAux f false [] (encodeRecordChars fs) = fs.map CSVValue.text
  | [], h, _, _ => absurd rfl h
  | [v], _, f, hf => by
    rcases v with s | q
    · rw [encodeRecordChars_singleton] at hf ⊢
      rw [decode_str_field s [] f
        (by simp only [encodeFieldChars, List.append_nil] at hf; simp at hf ⊢; omega)
        (by intro c2 cs2 h; cases h)]
      rw [decodeAux_nil, List.reverse_reverse]
      rfl
    · rw [encodeRecordChars_singleton] at hf ⊢
      rw [decode_num_field q [] f
        (by simp only [encodeFieldChars, List.append_nil] at hf; simp at hf ⊢; omega)]
      rw [decodeAux_nil, List.reverse_reverse]
      rfl
  | v :: v2 :: fs, _, f, hf => by
    have hne : v2 :: fs ≠ [] := by simp
    rw [encodeRecordChars_cons v hne] at hf ⊢
    have hlen : (encodeFieldChars v).length + 1 +
        (encodeRecordChars (v2 :: fs)).length ≤ f := by
      simp only [List.length_append, List.length_cons] at hf
      omega
    rcases v with s | q
    · rw [decode_str_field s (',' :: encodeRecordChars (v2 :: fs)) f
        (by simp only [encodeFieldChars, List.length_cons] at hlen ⊢
            simp at hlen ⊢
            omega)
        (by intro c2 cs2 h; cases h; decide)]
      rw [List.length_cons, decodeAux_comma, List.reverse_reverse]
      rw [decode_encodeRecord (v2 :: fs) hne _ le_rfl]
      rfl
    · rw [decode_num_field q (',' :: encodeRecordChars (v2 :: fs)) f
        (by simp only [encodeFieldChars, List.length_cons] at hlen
            simp only [List.length_cons]
            omega)]
      rw [List.length_cons, decodeAux_comma, List.reverse_reverse]
      rw [decode_encodeRecord (v2 :: fs) hne _ le_rfl]
      rfl

theorem encodeFieldChars_ne_nil (v : CSVValue) : encodeFieldChars v ≠ [] := by
  rcases v with s | q
  · simp [encodeFieldChars]
  · rw [encodeFieldChars, amountChars]
    rcases hde : decExp q with _ | k
    · show (['0'] : List Char) ≠ []
      simp
    · show (if q < 0 then ['-'] else []) ++
        magChars (q * 10 ^ k).num.natAbs k ≠ []
      rcases magChars_cons (q * 10 ^ k).num.natAbs k with ⟨c, cs, hmag, _⟩
      rw [hmag]
      by_cases hq : q < 0
      · rw [if_pos hq]
        simp
      · rw [if_neg hq]
        simp

theorem encodeRecordChars_ne_nil {fs : List CSVValue} (h : fs ≠ []) :
    encodeRecordChars fs ≠ [] := by
  rcases fs with _ | ⟨v, fs⟩
  · exact absurd rfl h
  · rcases fs with _ | ⟨v2, fs⟩
    · rw [encodeRecordChars_singleton, List.append_nil]
      exact encodeFieldChars_ne_nil v
    · rw [encodeRecordChars_cons v (by simp : v2 :: fs ≠ [])]
      intro hnil
      exact encodeFieldChars_ne_nil v (List.append_eq_nil.mp hnil).1

/-- The record-level CSV round trip: `csv.reader` yields back exactly
the field texts `csv.writer` was given. -/
theorem decodeRecord_encodeRecord {fs : List CSVValue} (h : fs ≠ []) :
    decodeRecord (String.mk (encodeRecordChars fs)) = fs.map CSVValue.text := by
  rw [decodeRecord, toList_mk]
  rcases hrec : encodeRecordChars fs with _ | ⟨c, cs⟩
  · exact absurd hrec (encodeRecordChars_ne_nil h)
  · show decodeAux (c :: cs).length false [] (c :: cs) = fs.map CSVValue.text
    rw [← hrec]
    exact decode_encodeRecord fs h _ le_rfl

/-! ## Query and summarize lemmas -/

theorem query_eq (s : DBState) (p : QueryParameters) :
    query s p = List.insertionSort expenseLE (matching s p) :=
  rfl

theorem mem_matching {s : DBState} {p : QueryParameters} {e : Expense} :
    e ∈ matching s p ↔ e ∈ s.rows ∧ dateCondition p e = true ∧
      typeCondition p e = true ∧ catCondition p e = true := by
  rw [matching]
  simp only [List.mem_filter]
  tauto

theorem query_perm_matching (s : DBState) (p : QueryParameters) :
    (query s p).Perm (matching s p) :=
  List.perm_insertionSort expenseLE (matching s p)

theorem mem_query {s : DBState} {p : QueryParameters} {e : Expense} :
    e ∈ query s p ↔ e ∈ matching s p :=
  (query_perm_matching s p).mem_iff

theorem query_sorted (s : DBState) (p : QueryParameters) :
    List.Sorted expenseLE (query s p) :=
  List.sorted_insertionSort expenseLE (matching s p)

theorem dateCondition_iff {p : QueryParameters} {e : Expense} :
    dateCondition p e = true ↔
      ∀ a b, p.start = some a → p.stop = some b →
        a.key ≤ e.date.key ∧ e.date.key ≤ b.key := by
  rcases hs : p.start with _ | a <;> rcases ht : p.stop with _ | b <;>
    simp [dateCondition, hs, ht]

theorem typeCondition_iff {p : QueryParameters} {e : Expense} :
    typeCondition p e = true ↔
      ∀ ts, p.types = some ts → e.type ∈ ts := by
  rcases ht : p.types with _ | ts <;> simp [typeCondition, ht]

theorem catCondition_iff {p : QueryParameters} {e : Expense} :
    catCondition p e = true ↔
      ∀ cs, p.categories = some cs → e.category ∈ cs := by
  rcases hc : p.categories with _ | cs <;> simp [catCondition, hc]

theorem summarizeGroups_keys (s : DBState) (p : QueryParameters) :
    (summarizeGroups s p).map Prod.fst = groupKeys (matching s p) := by
  rw [summarizeGroups, List.map_map]
  have h : (Prod.fst ∘ fun k => (k, groupSum (matching s p) k)) =
      fun k : String × String => k := rfl
  rw [h, List.map_id']

theorem mem_groupKeys {l : List Expense} {k : String × String} :
    k ∈ groupKeys l ↔ ∃ e ∈ l, (e.category, e.type) = k := by
  rw [groupKeys, List.mem_insertionSort, List.mem_dedup, List.mem_map]

theorem groupKeys_sorted (l : List Expense) :
    List.Sorted keyLE (groupKeys l) :=
  List.sorted_insertionSort keyLE _

theorem groupKeys_nodup (l : List Expense) : (groupKeys l).Nodup :=
  ((List.perm_insertionSort keyLE _).nodup_iff).mpr (List.nodup_dedup _)

theorem mem_summarizeGroups {s : DBState} {p : QueryParameters}
    {k : String × String} {v : ℚ} (h : (k, v) ∈ summarizeGroups s p) :
    k ∈ groupKeys (matching s p) ∧ v = groupSum (matching s p) k := by
  rw [summarizeGroups] at h
  rcases List.mem_map.mp h with ⟨k2, hk2, hpair⟩
  have h1 : k2 = k := congrArg Prod.fst hpair
  subst h1
  exact ⟨hk2, (congrArg Prod.snd hpair).symm⟩

theorem groupSum_query (s : DBState) (p : QueryParameters)
    (k : String × String) :
    groupSum (matching s p) k =
      (((query s p).filter
        (fun e => decide (e.category = k.1 ∧ e.type = k.2))).map
        Expense.amount).sum := by
  rw [groupSum]
  exact (List.Perm.sum_eq (List.Perm.map Expense.amount
    (List.Perm.filter _ (query_perm_matching s p)))).symm

/-! ## Save/load pipeline lemmas -/

theorem unrestricted_matching (s : DBState) :
    matching s ⟨none, none, none, none⟩ = s.rows := by
  rw [matching]
  rw [List.filter_eq_self.mpr, List.filter_eq_self.mpr,
    List.filter_eq_self.mpr]
  all_goals intro e he
  · rfl
  · rfl
  · rfl

theorem query_unrestricted_perm (s : DBState) :
    (query s ⟨none, none, none, none⟩).Perm s.rows := by
  have := query_perm_matching s ⟨none, none, none, none⟩
  rwa [unrestricted_matching] at this

/-- The field texts `csv.reader` recovers from the record `save` wrote
for one expense. -/
theorem decodeRecord_line (e : Expense) :
    decodeRecord (String.mk (encodeRecordChars (expenseRecord e))) =
      [dateToStr e.date, e.type, e.category, amountToStr e.amount,
        e.description] := by
  rw [expenseRecord, decodeRecord_encodeRecord (by simp)]
  rfl

theorem stageRow_ok {d : Date} (h : ValidDate d) (t c a de : String) :
    stageRow [dateToStr d, t, c, a, de] =
      .ok ⟨d, t, c, a, de⟩ := by
  simp only [stageRow, parseDate_dateToStr h]

theorem stageRows_map_ok (l : List Expense)
    (h : ∀ e ∈ l, ValidDate e.date) :
    stageRows (l.map (fun e => [dateToStr e.date, e.type, e.category,
        amountToStr e.amount, e.description])) =
      .ok (l.map (fun e => (⟨e.date, e.type, e.category,
        amountToStr e.amount, e.description⟩ : StagedExpense))) := by
  induction l with
  | nil => rfl
  | cons e l ih =>
    have h1 := h e (List.mem_cons_self e l)
    have h2 := ih (fun x hx => h x (List.mem_cons_of_mem e hx))
    simp only [List.map_cons, stageRows, stageRow_ok h1, h2]

theorem commitStaged_ok : ∀ (l : List Expense) (rows : List Expense)
    (seq : Nat), (∀ e ∈ l, DecimalAmt e.amount) →
    ∃ newRows, commitStaged rows seq
        (l.map (fun e => (⟨e.date, e.type, e.category,
          amountToStr e.amount, e.description⟩ : StagedExpense))) =
      .ok (rows ++ newRows, seq + l.length) ∧
      newRows.map fieldTuple = l.map fieldTuple
  | [], rows, seq, _ => ⟨[], by simp [commitStaged], rfl⟩
  | e :: l, rows, seq, h => by
    have h1 : DecimalAmt e.amount := h e (List.mem_cons_self e l)
    rcases commitStaged_ok l
        (rows ++ [⟨seq, e.date, e.type, e.category, e.amount,
          e.description⟩]) (seq + 1)
        (fun x hx => h x (List.mem_cons_of_mem e hx)) with
      ⟨newRows, hrun, htup⟩
    refine ⟨⟨seq, e.date, e.type, e.category, e.amount, e.description⟩ ::
      newRows, ?_, ?_⟩
    · simp only [List.map_cons, commitStaged, parseAmount_amountToStr h1]
      rw [hrun]
      simp only [List.append_assoc, List.singleton_append,
        List.length_cons]
      have : seq + 1 + l.length = seq + (l.length + 1) := by omega
      rw [this]
    · simp only [List.map_cons, htup]
      rfl

theorem load_some_ok (s2 : DBState) (lines : List String)
    (staged : List StagedExpense) (rows : List Expense) (seq : Nat)
    (h1 : stageRows (lines.map decodeRecord) = .ok staged)
    (h2 : commitStaged s2.rows s2.seq staged = .ok (rows, seq)) :
    load s2 (some lines) = .ok (⟨rows, seq⟩ : DBState) := by
  have e1 : load s2 (some lines) =
      (match stageRows (lines.map decodeRecord) with
      | Except.error err => Except.error err
      | Except.ok staged =>
        match commitStaged s2.rows s2.seq staged with
        | Except.error err => Except.error err
        | Except.ok (rows, seq) => Except.ok (⟨rows, seq⟩ : DBState)) := rfl
  rw [e1, h1]
  show (match commitStaged s2.rows s2.seq staged with
      | Except.error err => Except.error err
      | Except.ok (rows, seq) => Except.ok (⟨rows, seq⟩ : DBState)) =
    Except.ok (⟨rows, seq⟩ : DBState)
  rw [h2]

/-- The full round trip used by the spec's save/erase/load property. -/
theorem load_save_roundtrip (s : DBState)
    (hdate : ∀ e ∈ s.rows, ValidDate e.date)
    (hamt : ∀ e ∈ s.rows, DecimalAmt e.amount) :
    ∃ rows, load (clear s) (some (save s none)) =
        .ok ⟨rows, 1 + (query s ⟨none, none, none, none⟩).length⟩ ∧
      rows.map fieldTuple =
        (query s ⟨none, none, none, none⟩).map fieldTuple := by
  have hmem : ∀ e ∈ query s ⟨none, none, none, none⟩, e ∈ s.rows :=
    fun e he => (query_unrestricted_perm s).subset he
  have hdec : (save s none).map decodeRecord =
      (query s ⟨none, none, none, none⟩).map
        (fun e => [dateToStr e.date, e.type, e.category,
          amountToStr e.amount, e.description]) := by
    rw [save, saveLines, List.map_map]
    refine List.map_congr_left ?_
    intro e _
    exact decodeRecord_line e
  rcases commitStaged_ok (query s ⟨none, none, none, none⟩) [] 1
      (fun e he => hamt e (hmem e he)) with ⟨newRows, hrun, htup⟩
  rw [List.nil_append] at hrun
  refine ⟨newRows, ?_, htup⟩
  refine load_some_ok (clear s) (save s none)
      ((query s ⟨none, none, none, none⟩).map
        (fun e => (⟨e.date, e.type, e.category, amountToStr e.amount,
          e.description⟩ : StagedExpense)))
      newRows _ ?_ ?_
  · rw [hdec]
    exact stageRows_map_ok _ (fun e he => hdate e (hmem e he))
  · show commitStaged [] 1 _ = _
    exact hrun

/-! ## Test scenario (spec §8, `src/tests/common.py`) -/

/-- Row 1 of the test fixture. -/
def ex1 : Expense :=
  ⟨1, ⟨2023, 12, 31⟩, "R", "gen", -12, "test-1"⟩

/-- Row 2 of the test fixture. -/
def ex2 : Expense :=
  ⟨2, ⟨2023, 12, 15⟩, "C", "test", -13, "test-2"⟩

/-- Row 3 of the test fixture (the amount −13.5 is the rational
−27/2, written via `Rat.divInt` so that it evaluates). -/
def ex3 : Expense :=
  ⟨3, ⟨2023, 12, 4⟩, "M", "trial", Rat.divInt (-27) 2, "test-2.5"⟩

/-- Row 4 of the test fixture. -/
def ex4 : Expense :=
  ⟨4, ⟨2023, 12, 1⟩, "T", "test", -14, "test-3"⟩

/-- Row 5 of the test fixture. -/
def ex5 : Expense :=
  ⟨5, ⟨2023, 11, 15⟩, "K", "more", -15, "test-4"⟩

/-- The populated store of the spec's §8 scenario: rows with ids 1–5, the
sequence about to assign 6. -/
def scenarioState : DBState :=
  ⟨[ex1, ex2, ex3, ex4, ex5], 6⟩

/-- The §8 query window, 2023-12-01 through 2023-12-31, no other filter. -/
def decParams : QueryParameters :=
  ⟨some ⟨2023, 12, 1⟩, some ⟨2023, 12, 31⟩, none, none⟩


/-! ## Claim theorems -/

theorem matching_eq_filter (s : DBState) (p : QueryParameters) :
    matching s p = s.rows.filter
      (fun e => dateCondition p e && (typeCondition p e && catCondition p e)) := by
  rw [matching, List.filter_filter, List.filter_filter]
  refine List.filter_congr ?_
  intro e _
  cases dateCondition p e <;> cases typeCondition p e <;>
    cases catCondition p e <;> rfl

/-- C1: `query` returns exactly the stored expenses passing the AND of
the three optional clauses — the inclusive date range only when both
bounds are present, type membership only when `types` is present,
category membership only when `categories` is present — ordered
ascending by date, omitting no matching stored row, and an empty match
gives the empty list rather than an error. -/
theorem query_filter_spec (s : DBState) (p : QueryParameters) :
    (∀ e : Expense, e ∈ query s p ↔ e ∈ s.rows ∧
      (∀ a b, p.start = some a → p.stop = some b →
        a.key ≤ e.date.key ∧ e.date.key ≤ b.key) ∧
      (∀ ts, p.types = some ts → e.type ∈ ts) ∧
      (∀ cs, p.categories = some cs → e.category ∈ cs)) ∧
    List.Sorted expenseLE (query s p) ∧
    (query s p).Perm (s.rows.filter
      (fun e => dateCondition p e && (typeCondition p e && catCondition p e))) ∧
    (s.rows.filter
      (fun e => dateCondition p e && (typeCondition p e && catCondition p e)) =
        [] → query s p = []) := by
  refine ⟨?_, query_sorted s p, ?_, ?_⟩
  · intro e
    rw [mem_query, mem_matching, dateCondition_iff, typeCondition_iff,
      catCondition_iff]
  · rw [← matching_eq_filter]
    exact query_perm_matching s p
  · intro hempty
    rw [← matching_eq_filter] at hempty
    exact List.Perm.eq_nil (hempty ▸ query_perm_matching s p)

/-- C10: a present-but-empty `types` (or `categories`) list restricts to
no rows at all — `query` returns the empty list whatever the store
holds — while only an absent (`None`) filter means unrestricted. -/
theorem query_empty_list_filter (s : DBState) (p : QueryParameters)
    (h : p.types = some [] ∨ p.categories = some []) :
    query s p = [] := by
  rcases h with h | h
  · have htf : ∀ e, typeCondition p e = false := by
      intro e
      rw [typeCondition, h]
      simp
    rw [query_eq, matching]
    have h2 : (s.rows.filter (dateCondition p)).filter (typeCondition p) =
        [] := by
      rw [List.filter_eq_nil_iff]
      intro a _
      rw [htf a]
      simp
    rw [h2]
    rfl
  · have hcf : ∀ e, catCondition p e = false := by
      intro e
      rw [catCondition, h]
      simp
    rw [query_eq, matching]
    have h2 : ((s.rows.filter (dateCondition p)).filter
        (typeCondition p)).filter (catCondition p) = [] := by
      rw [List.filter_eq_nil_iff]
      intro a _
      rw [hcf a]
      simp
    rw [h2]
    rfl

/-- C10 witness: with `types = some []` the scenario store yields no
rows. -/
theorem query_empty_list_filter_witness :
    query scenarioState ⟨none, none, some [], none⟩ = [] :=
  query_empty_list_filter scenarioState ⟨none, none, some [], none⟩
    (Or.inl rfl)

/-- C8: `clear` (the spec's `erase`) empties the store and restarts the
identifier sequence at 1: it is idempotent (erasing an empty store
succeeds and changes nothing), and the next `add` materialises its row
with id 1. -/
theorem erase_reset_spec (s : DBState) (d : ExpenseAdd) :
    (clear s).rows = [] ∧ (clear s).seq = 1 ∧
    clear (clear s) = clear s ∧
    (add (clear s) d).1.rows = [materialize (clear s) d] ∧
    (materialize (clear s) d).id = 1 := by
  exact ⟨rfl, rfl, rfl, rfl, rfl⟩

/-- C4 counterexample: `CRUDHandler.add` has no `return` statement, so
at this concrete input the call returns `None`, not the materialized
stored record the claim promises. -/
theorem add_return_cex :
    (add ⟨[], 1⟩ ⟨⟨2023, 1, 1⟩, "R", "gen", -12, "x"⟩).2 = none ∧
    (add ⟨[], 1⟩ ⟨⟨2023, 1, 1⟩, "R", "gen", -12, "x"⟩).2 ≠
      some (materialize ⟨[], 1⟩ ⟨⟨2023, 1, 1⟩, "R", "gen", -12, "x"⟩) := by
  refine ⟨rfl, ?_⟩
  intro h
  cases h

/-- C4 amended: `add` inserts exactly one new row carrying the
sequence-assigned id, commits it, and returns `None` (the record is
refreshed in memory but not returned); there is no duplicate detection,
so a second identical call inserts a second row with a fresh id and the
same caller-supplied field values. -/
theorem add_insert_spec (s : DBState) (d : ExpenseAdd) :
    (add s d).1.rows = s.rows ++ [materialize s d] ∧
    (materialize s d).id = s.seq ∧
    (add s d).1.seq = s.seq + 1 ∧
    (add s d).2 = none ∧
    (add (add s d).1 d).1.rows =
      s.rows ++ [materialize s d, materialize (add s d).1 d] ∧
    (materialize s d).id ≠ (materialize (add s d).1 d).id ∧
    fieldTuple (materialize s d) = fieldTuple (materialize (add s d).1 d) := by
  refine ⟨rfl, rfl, rfl, rfl, ?_, ?_, rfl⟩
  · show (s.rows ++ [materialize s d]) ++ [materialize (add s d).1 d] = _
    rw [List.append_assoc]
    rfl
  · show s.seq ≠ s.seq + 1
    omega

/-- C5: evaluating `load` at failing inputs.  A 4-field row raises the
bare `IndexError` (no row index or field name in the error), a bad date
raises `ValueError` carrying only the unparseable text, a non-numeric
amount fails at commit carrying only the bad text, and a missing file
raises `FileNotFoundError`; in every case the store is unchanged (no
partial commit), but none of the errors identifies the offending row
index as the claim requires. -/
theorem load_failure_modes :
    load scenarioState (some ["\"2023-12-01\",\"R\",\"gen\",-12.0"]) =
      .error .indexError ∧
    load scenarioState (some ["\"2023-13-01\",\"R\",\"gen\",-12.0,\"x\""]) =
      .error (.valueError "2023-13-01") ∧
    load scenarioState (some ["\"2023-12-01\",\"R\",\"gen\",\"abc\",\"x\""]) =
      .error (.dbError "abc") ∧
    load scenarioState none = .error .fileNotFound := by
  refine ⟨by decide, by decide, by decide, by decide⟩


/-- C2 counterexample: over the §8 scenario and the December window the
grouped output contains a fourth group, `("trial", "M")` (row 3,
2023-12-04, −13.5, lies inside the window), and the emitted rows are
`(type, sum)` pairs, so the output is not the three-group value the
claim states. -/
theorem summarize_scenario_cex :
    (("trial", "M") ∈ (summarizeGroups scenarioState decParams).map
      Prod.fst) ∧
    summarize scenarioState decParams ≠
      [("R", -12), ("C", -13), ("T", -14)] := by
  refine ⟨by decide, ?_⟩
  intro h
  have h2 := congrArg List.length h
  have h3 : (summarize scenarioState decParams).length = 4 := by decide
  rw [h3] at h2
  simp at h2

/-- C2 amended: `summarize` emits one row per `(category, type)` group
of the matching rows — a sequence of `(type, summed amount)` pairs (the
category key is grouped and ordered by but not part of the emitted
rows), ordered ascending by `(category, type)` with no duplicate group;
over the §8 scenario and the window 2023-12-01..2023-12-31 it returns
`[("R", −12.0), ("C", −13.0), ("T", −14.0), ("M", −13.5)]`. -/
theorem summarize_shape_and_scenario :
    (∀ (s : DBState) (p : QueryParameters),
      summarize s p = (summarizeGroups s p).map (fun g => (g.1.2, g.2)) ∧
      List.Sorted keyLE ((summarizeGroups s p).map Prod.fst) ∧
      ((summarizeGroups s p).map Prod.fst).Nodup) ∧
    summarize scenarioState decParams =
      [("R", -12), ("C", -13), ("T", -14), ("M", Rat.divInt (-27) 2)] ∧
    Rat.divInt (-27) 2 = -27 / 2 := by
  refine ⟨?_, ?_, by rw [Rat.divInt_eq_div]; norm_num⟩
  · intro s p
    refine ⟨rfl, ?_, ?_⟩
    · rw [summarizeGroups_keys]
      exact groupKeys_sorted _
    · rw [summarizeGroups_keys]
      exact groupKeys_nodup _
  · have hm : matching scenarioState decParams = [ex1, ex2, ex3, ex4] := rfl
    have hkeys : groupKeys (matching scenarioState decParams) =
        [("gen", "R"), ("test", "C"), ("test", "T"), ("trial", "M")] := rfl
    have hf1 : (matching scenarioState decParams).filter
        (fun e => decide (e.category = "gen" ∧ e.type = "R")) = [ex1] := rfl
    have hf2 : (matching scenarioState decParams).filter
        (fun e => decide (e.category = "test" ∧ e.type = "C")) = [ex2] := rfl
    have hf3 : (matching scenarioState decParams).filter
        (fun e => decide (e.category = "test" ∧ e.type = "T")) = [ex4] := rfl
    have hf4 : (matching scenarioState decParams).filter
        (fun e => decide (e.category = "trial" ∧ e.type = "M")) = [ex3] := rfl
    have hs1 : groupSum (matching scenarioState decParams) ("gen", "R") =
        -12 := by
      rw [groupSum, hf1]
      simp [ex1]
    have hs2 : groupSum (matching scenarioState decParams) ("test", "C") =
        -13 := by
      rw [groupSum, hf2]
      simp [ex2]
    have hs3 : groupSum (matching scenarioState decParams) ("test", "T") =
        -14 := by
      rw [groupSum, hf3]
      simp [ex4]
    have hs4 : groupSum (matching scenarioState decParams) ("trial", "M") =
        Rat.divInt (-27) 2 := by
      rw [groupSum, hf4]
      simp [ex3]
    rw [summarize, summarizeGroups, hkeys]
    simp only [List.map_cons, List.map_nil, hs1, hs2, hs3, hs4]

/-- C3: the grouped sums agree with `query`: every `(category, type)`
group `summarize` computes carries exactly the arithmetic sum of
`amount` over the rows of `query` with that category and type; a pair
matched by no queried row yields no group at all; and the emitted rows
are the groups projected to `(type, sum)`. -/
theorem summarize_agrees_with_query (s : DBState) (p : QueryParameters) :
    (∀ (k : String × String) (v : ℚ), (k, v) ∈ summarizeGroups s p →
      v = (((query s p).filter
        (fun e => decide (e.category = k.1 ∧ e.type = k.2))).map
        Expense.amount).sum) ∧
    (∀ c t : String, (c, t) ∈ (summarizeGroups s p).map Prod.fst ↔
      ∃ e ∈ query s p, e.category = c ∧ e.type = t) ∧
    summarize s p = (summarizeGroups s p).map (fun g => (g.1.2, g.2)) := by
  refine ⟨?_, ?_, rfl⟩
  · intro k v hkv
    rcases mem_summarizeGroups hkv with ⟨_, hv⟩
    rw [hv, groupSum_query]
  · intro c t
    rw [summarizeGroups_keys, mem_groupKeys]
    constructor
    · rintro ⟨e, he, hpair⟩
      rcases Prod.mk.injEq _ _ _ _ ▸ hpair with ⟨h1, h2⟩
      exact ⟨e, mem_query.mpr he, h1, h2⟩
    · rintro ⟨e, he, h1, h2⟩
      exact ⟨e, mem_query.mp he, by rw [h1, h2]⟩


/-- C6: `save` writes exactly the rows of `query` with an unrestricted
`QueryParameters` (ascending by date), one record per row and no header,
with fields in the order date, type, category, amount, description,
every non-numeric field quoted (with embedded quotes doubled) and the
numeric amount bare; the previous destination content is discarded. -/
theorem save_format_spec (s : DBState) (prev : Option (List String)) :
    save s prev = saveLines s ∧
    (saveLines s).length = (query s ⟨none, none, none, none⟩).length ∧
    saveLines s = (query s ⟨none, none, none, none⟩).map
      (fun e => String.mk (encodeRecordChars (expenseRecord e))) ∧
    (∀ e : Expense, encodeRecordChars (expenseRecord e) =
      ('"' :: (escapeChars (dateToStr e.date).toList ++ ['"'])) ++ ',' ::
      (('"' :: (escapeChars e.type.toList ++ ['"'])) ++ ',' ::
      (('"' :: (escapeChars e.category.toList ++ ['"'])) ++ ',' ::
      (amountChars e.amount ++ ',' ::
      ('"' :: (escapeChars e.description.toList ++ ['"'])))))) ∧
    (∀ e : Expense, decodeRecord (String.mk (encodeRecordChars
        (expenseRecord e))) =
      [dateToStr e.date, e.type, e.category, amountToStr e.amount,
        e.description]) := by
  refine ⟨rfl, ?_, rfl, fun e => rfl, fun e => decodeRecord_line e⟩
  rw [saveLines, List.length_map]

/-- C7: the save → erase → load round trip reproduces the original
rows' field values exactly, as a multiset (ids are reassigned by the
restarted sequence), for every store whose rows hold calendar-valid
dates and float-representable amounts. -/
theorem save_erase_load_roundtrip (s : DBState)
    (hdate : ∀ e ∈ s.rows, ValidDate e.date)
    (hamt : ∀ e ∈ s.rows, DecimalAmt e.amount) :
    ∃ s2, load (clear s) (some (save s none)) = .ok s2 ∧
      (s2.rows.map fieldTuple).Perm (s.rows.map fieldTuple) := by
  rcases load_save_roundtrip s hdate hamt with ⟨rows, hload, htup⟩
  refine ⟨⟨rows, 1 + (query s ⟨none, none, none, none⟩).length⟩, hload, ?_⟩
  show List.Perm (rows.map fieldTuple) (s.rows.map fieldTuple)
  rw [htup]
  exact List.Perm.map fieldTuple (query_unrestricted_perm s)

set_option exponentiation.threshold 1200 in
set_option maxRecDepth 16000 in
/-- C7 witness: the round trip at the §8 scenario store. -/
theorem save_erase_load_roundtrip_witness :
    ∃ s2, load (clear scenarioState) (some (save scenarioState none)) =
        .ok s2 ∧
      (s2.rows.map fieldTuple).Perm (scenarioState.rows.map fieldTuple) :=
  save_erase_load_roundtrip scenarioState (by decide) (by decide)

/-- C9: `update` (modelled from the spec, §4.7) overwrites exactly the
present patch fields of the addressed row, leaves absent fields and all
other rows untouched, commits and returns the updated record; an
all-absent patch changes nothing, an all-present patch overwrites every
caller-settable field; a missing id fails with the not-found error
carrying that id. -/
theorem update_patch_spec (s : DBState) (i : Nat) (p : ExpenseUpdate)
    (e : Expense) :
    (s.rows.find? (fun r => r.id == i) = some e →
      update s i p = .ok
        (⟨s.rows.map (fun r => if r.id = i then applyPatch e p else r),
          s.seq⟩, applyPatch e p)) ∧
    ((∀ r ∈ s.rows, r.id ≠ i) → update s i p = .error (.notFound i)) ∧
    applyPatch e ⟨none, none, none, none, none⟩ = e ∧
    (∀ (d : Date) (t c : String) (a : ℚ) (de : String),
      applyPatch e ⟨some d, some t, some c, some a, some de⟩ =
        ⟨e.id, d, t, c, a, de⟩) ∧
    (applyPatch e p).id = e.id ∧
    (p.date = none → (applyPatch e p).date = e.date) ∧
    (∀ d, p.date = some d → (applyPatch e p).date = d) ∧
    (p.type = none → (applyPatch e p).type = e.type) ∧
    (∀ t, p.type = some t → (applyPatch e p).type = t) ∧
    (p.category = none → (applyPatch e p).category = e.category) ∧
    (∀ c, p.category = some c → (applyPatch e p).category = c) ∧
    (p.amount = none → (applyPatch e p).amount = e.amount) ∧
    (∀ a, p.amount = some a → (applyPatch e p).amount = a) ∧
    (p.description = none → (applyPatch e p).description = e.description) ∧
    (∀ de, p.description = some de → (applyPatch e p).description = de) := by
  refine ⟨?_, ?_, rfl, fun d t c a de => rfl, rfl, ?_, ?_, ?_, ?_, ?_, ?_,
    ?_, ?_, ?_, ?_⟩
  · intro h
    rw [update, h]
  · intro h
    have hnone : s.rows.find? (fun r => r.id == i) = none := by
      rw [List.find?_eq_none]
      intro r hr
      simpa using h r hr
    rw [update, hnone]
  all_goals
    first
    | (intro h
       show Option.getD _ _ = _
       rw [h]
       rfl)
    | (intro x h
       show Option.getD _ _ = _
       rw [h]
       rfl)

end Sem
